import Mathlib

/-!
Verification of the jSmearHash decode pipeline (src/jSmearHash/index.js).

The JavaScript source is shallowly embedded: JS numbers are modelled by `ℝ`
(exact real arithmetic), integer-producing JS operators (`~~`, `|`, `>>`, `&`,
`%` on integers) by `ℤ` with their exact ECMAScript semantics spelled out,
and byte buffers by `List ℕ`.
-/

namespace SmearHash

/-- The 83-symbol alphabet, from the source constant `digit`.
(The two brace characters are written with hex escapes.) -/
def digitChars : List Char :=
  "0123456789ABCDEFGHIJKLMNOPQRSTUVWXYZabcdefghijklmnopqrstuvwxyz#$%*+,-.:;=?@[]^_\x7b|\x7d~".toList

/-- `digit.indexOf(c)`: first index of `c` in the alphabet, `-1` when absent. -/
def indexOfChar (c : Char) : ℤ :=
  if c ∈ digitChars then (digitChars.indexOf c : ℤ) else -1

/-- Models `digit.indexOf(str[i])`.  Reading past the end of a JS string gives
`undefined`, and `digit.indexOf(undefined)` is `-1`. -/
def charAt (str : List Char) (i : ℕ) : ℤ :=
  match str.get? i with
  | some c => indexOfChar c
  | none => -1

/-- The loop of `decode83`, recursing on the trip count:
`value = value * 83 + digit.indexOf(str[start++])` runs `end - start` times. -/
def decode83Go (str : List Char) (value : ℤ) (start : ℕ) : ℕ → ℤ
  | 0 => value
  | n + 1 => decode83Go str (value * 83 + charAt str start) (start + 1) n

/-- Source `decode83(str, start, end)`: its `while (start < end)`
loop executes exactly `end - start` iterations. -/
def decode83 (str : List Char) (start e : ℕ) : ℤ :=
  decode83Go str 0 start (e - start)

/-- Position `k` of `str` holds a character of the 83-symbol alphabet. -/
def charOK (str : List Char) (k : ℕ) : Prop :=
  ∃ c ∈ digitChars, str.get? k = some c

instance (str : List Char) (k : ℕ) : Decidable (charOK str k) := by
  unfold charOK; infer_instance

/-- Wrap an integer into the signed 32-bit range, as ECMAScript `ToInt32`. -/
def toInt32 (a : ℤ) : ℤ :=
  (a + 2 ^ 31) % 2 ^ 32 - 2 ^ 31

/-- Truncation of a real toward zero (the first half of `ToInt32`). -/
noncomputable def truncReal (x : ℝ) : ℤ :=
  if x < 0 then ⌈x⌉ else ⌊x⌋

/-- The JS `~~x` operator on a finite real, i.e. ECMAScript `ToInt32`:
truncation toward zero followed by the wrap into the signed 32-bit range. -/
noncomputable def jsTrunc (x : ℝ) : ℤ :=
  toInt32 (truncReal x)

/-- Bitwise `a | 1` on a 32-bit integer: set the lowest bit. -/
def jsOr1 (a : ℤ) : ℤ :=
  if a % 2 = 0 then a + 1 else a

/-- The `(punch | 1)` expression of the source.  The `|` operator applies
`ToInt32` to its operand (the same operation as `~~`, `jsTrunc`); a missing
`punch` is JS `undefined` with `ToInt32(undefined) = ToInt32(NaN) = 0`, and
`0 | 1 = 1`. -/
noncomputable def punchOr1 (punch : Option ℝ) : ℤ :=
  jsOr1 (match punch with
    | none => 0
    | some p => jsTrunc p)

/-- Source constant `d`. -/
noncomputable def d : ℝ := 3294.6

/-- Source constant `e`. -/
noncomputable def e : ℝ := 269.025

/-- Source `sRGBToLinear`. -/
noncomputable def sRGBToLinear (value : ℝ) : ℝ :=
  if value > 10.31475 then (value / e + 0.052132) ^ (2.4 : ℝ) else value / d

/-- Source `linearTosRGB`; the leading `~~` truncates toward zero. -/
noncomputable def linearTosRGB (v : ℝ) : ℤ :=
  jsTrunc (if v > 0.00001227 then e * v ^ (0.416666 : ℝ) - 13.025 else v * d + 1)

/-- Source `signSqr`. -/
noncomputable def signSqr (x : ℝ) : ℝ :=
  (if x < 0 then -1 else 1) * x * x

/-- The `while (x > PI) { x -= PI2 }` loop of `fastCos`, unrolled on a fuel
argument: with enough fuel this is exactly the loop. -/
noncomputable def reduceFuel : ℕ → ℝ → ℝ
  | 0, x => x
  | n + 1, x => if x > Real.pi then reduceFuel n (x - 2 * Real.pi) else x

/-- Enough fuel for the reduction loop to run to completion from `x`. -/
noncomputable def fuelFor (x : ℝ) : ℕ :=
  (⌈(x - Real.pi) / (2 * Real.pi)⌉).toNat

/-- The value computed by the `while (x > PI)` loop of `fastCos`. -/
noncomputable def reduce (x : ℝ) : ℝ :=
  reduceFuel (fuelFor x) x

/-- Source `fastCos`. -/
noncomputable def fastCos (x : ℝ) : ℝ :=
  let x' := reduce (x + Real.pi / 2)
  let cos := 1.27323954 * x' - 0.405284735 * signSqr x'
  0.225 * (signSqr cos - cos) + cos

/-- Source `getBlurHashAverageColor`.  Its `val >> 16` is an arithmetic
right shift of `ToInt32(val)`, i.e. floor division by `2 ^ 16`; `& 255` on a
two's-complement 32-bit integer is `% 256` (Euclidean). -/
def getBlurHashAverageColor (hash : List Char) : ℤ × ℤ × ℤ :=
  let val := decode83 hash 2 6
  ((toInt32 val).fdiv 65536, ((toInt32 val).fdiv 256) % 256, (toInt32 val) % 256)

/-- Source `maximumValue = ((decode83(blurHash, 1, 2) + 1) / 13446) * (punch | 1)`. -/
noncomputable def maximumValue (hash : List Char) (punch : Option ℝ) : ℝ :=
  ((decode83 hash 1 2 : ℝ) + 1) / 13446 * (punchOr1 punch : ℝ)

/-- Source `sizeFlag = decode83(blurHash, 0, 1)`. -/
def sizeFlag (hash : List Char) : ℤ :=
  decode83 hash 0 1

/-- Source `numX = (sizeFlag % 9) + 1`; JS `%` is the truncating remainder. -/
def numX (hash : List Char) : ℤ :=
  (sizeFlag hash).tmod 9 + 1

/-- Source `numY = ~~(sizeFlag / 9) + 1`; on integers `~~(a / 9)` is truncating division. -/
def numY (hash : List Char) : ℤ :=
  (sizeFlag hash).tdiv 9 + 1

/-- The `colors` array of `decodeBlurHash`, as a function from coefficient
index to the linear-RGB triple `colors[3k .. 3k+2]`.  Index `0` is the
linearised average color; the loop writes each index `1 ≤ k < size` with the
AC formulas (`~~(value / c)` is truncating division, `%` the truncating
remainder, both applied to the integer `decode83` result). -/
noncomputable def colorsAt (hash : List Char) (maxVal : ℝ) (k : ℕ) : ℝ × ℝ × ℝ :=
  if k = 0 then
    let avg := getBlurHashAverageColor hash
    (sRGBToLinear (avg.1 : ℝ), sRGBToLinear (avg.2.1 : ℝ), sRGBToLinear (avg.2.2 : ℝ))
  else
    let value := decode83 hash (4 + k * 2) (6 + k * 2)
    (signSqr ((value.tdiv (19 * 19) - 9 : ℤ) : ℝ) * maxVal,
     signSqr (((value.tdiv 19).tmod 19 - 9 : ℤ) : ℝ) * maxVal,
     signSqr ((value.tmod 19 - 9 : ℤ) : ℝ) * maxVal)

/-- Storing an integer into a `Uint8ClampedArray` clamps it to `[0, 255]`. -/
def clampByte (z : ℤ) : ℕ :=
  if z < 0 then 0 else if 255 < z then 255 else z.toNat

/-- One output pixel of the synthesis loop: the three channel sums
`Σ_j Σ_i colors[(i + j*numX)] * (fastCos(xw*i) * fastCos(yh*j))` with
`xw = π·x/width`, `yh = π·y/height`. -/
noncomputable def pixelRGB (colors : ℕ → ℝ × ℝ × ℝ) (nx ny w h x y : ℕ) : ℝ × ℝ × ℝ :=
  let xw := Real.pi * x / w
  let yh := Real.pi * y / h
  (∑ j ∈ Finset.range ny, ∑ i ∈ Finset.range nx,
     (colors (i + j * nx)).1 * (fastCos (xw * i) * fastCos (yh * j)),
   ∑ j ∈ Finset.range ny, ∑ i ∈ Finset.range nx,
     (colors (i + j * nx)).2.1 * (fastCos (xw * i) * fastCos (yh * j)),
   ∑ j ∈ Finset.range ny, ∑ i ∈ Finset.range nx,
     (colors (i + j * nx)).2.2 * (fastCos (xw * i) * fastCos (yh * j)))

/-- Lay out pixel triples as RGBA bytes: each pixel contributes its three
channel bytes followed by the constant alpha byte `255`. -/
def rgbaChunks (l : List (ℕ × ℕ × ℕ)) : List ℕ :=
  l.flatMap fun t => [t.1, t.2.1, t.2.2, 255]

/-- The pixel-filling double loop of `decodeBlurHash` for positive bounds:
row-major order, `pixelIndex = 4*x + y*(4*width)`, which is exactly the
position of the chunk of pixel `(x, y)` in this concatenation. -/
noncomputable def renderPixels (colors : ℕ → ℝ × ℝ × ℝ) (nx ny w h : ℕ) : List ℕ :=
  rgbaChunks <|
    (List.range h).flatMap fun y =>
      (List.range w).map fun x =>
        let rgb := pixelRGB colors nx ny w h x y
        (clampByte (linearTosRGB rgb.1),
         clampByte (linearTosRGB rgb.2.1),
         clampByte (linearTosRGB rgb.2.2))

/-- Source `decodeBlurHash`.  Here `none` models the `RangeError` thrown
by `new Uint8ClampedArray(n)` for negative `n`.  When a loop bound is `≤ 0`
the pixel loops write nothing, so the zero-initialised buffer is returned
unchanged; when both bounds are positive the writes tile the whole buffer,
which is `renderPixels`. -/
noncomputable def decodeBlurHash (hash : List Char) (width height : ℤ)
    (punch : Option ℝ) : Option (List ℕ) :=
  let maxVal := maximumValue hash punch
  let colors := colorsAt hash maxVal
  let bytesPerRow := width * 4
  let total := bytesPerRow * height
  if total < 0 then
    none
  else if 0 < width ∧ 0 < height then
    some (renderPixels colors (numX hash).toNat (numY hash).toNat width.toNat height.toNat)
  else
    some (List.replicate total.toNat 0)

/-- A structurally valid hash: every character is in the 83-symbol alphabet
and the length matches the grid size declared by the first character. -/
def validHash (hash : List Char) : Prop :=
  (∀ c ∈ hash, c ∈ digitChars) ∧
  (hash.length : ℤ) = 4 + 2 * (numX hash * numY hash)

instance (hash : List Char) : Decidable (validHash hash) := by
  unfold validHash; infer_instance

/-- Modelled from the spec: `sign_sqr(x) = sign(x) * x²` with
`sign(x) = -1 if x < 0 else 1`, on integers. -/
def signSqrZ (x : ℤ) : ℤ :=
  (if x < 0 then -1 else 1) * x * x

/-- Modelled from the spec: `sRGBToLinear(byteValue)` per the spec's formulas. -/
noncomputable def spec_sRGBToLinear (byteValue : ℝ) : ℝ :=
  if byteValue > 10.31475 then (byteValue / 269.025 + 0.052132) ^ (2.4 : ℝ)
  else byteValue / 3294.6

/-- Modelled from the spec: `linearToSRGB(linearValue)` per the spec's
formulas, with the spec's `floor`. -/
noncomputable def spec_linearToSRGB (linearValue : ℝ) : ℤ :=
  if linearValue > 0.00001227 then ⌊269.025 * linearValue ^ (0.416666 : ℝ) - 13.025⌋
  else ⌊linearValue * 3294.6 + 1⌋

/-- The spec's `linearToSRGB` with `floor` replaced by truncation toward
zero.  The source's `~~` computes `ToInt32`, i.e. this truncation followed by
the wrap into the signed 32-bit range, so the source agrees with this
definition exactly when the truncated value lies in `[-2³¹, 2³¹)`. -/
noncomputable def spec_linearToSRGB_trunc (linearValue : ℝ) : ℤ :=
  if linearValue > 0.00001227 then truncReal (269.025 * linearValue ^ (0.416666 : ℝ) - 13.025)
  else truncReal (linearValue * 3294.6 + 1)

/-! Lemmas and claim theorems. -/

/-- Horner-scheme characterisation of the `decode83` loop. -/
lemma decode83Go_eq (str : List Char) :
    ∀ (n : ℕ) (v : ℤ) (s : ℕ),
      decode83Go str v s n =
        v * 83 ^ n + ∑ k ∈ Finset.Ico s (s + n), charAt str k * 83 ^ (s + n - 1 - k) := by
  intro n
  induction n with
  | zero =>
    intro v s
    simp [decode83Go]
  | succ n ih =>
    intro v s
    rw [decode83Go, ih (v * 83 + charAt str s) (s + 1)]
    rw [Finset.sum_eq_sum_Ico_succ_bot (by omega : s < s + (n + 1))]
    have h2 : s + (n + 1) - 1 - s = n := by omega
    have h1 : (s + 1) + n = s + (n + 1) := by omega
    rw [h1, h2]
    ring_nf

/-- C4: `decode83` computes the big-endian base-83 positional value of the slice. -/
theorem decode83_horner (str : List Char) (start e : ℕ)
    (hse : start < e) (he : e ≤ str.length)
    (hvalid : ∀ k, k < e → start ≤ k → charOK str k) :
    decode83 str start e =
      ∑ k ∈ Finset.Ico start e, charAt str k * 83 ^ (e - 1 - k) := by
  obtain ⟨n, rfl⟩ : ∃ n, e = start + n := ⟨e - start, by omega⟩
  rw [decode83, show start + n - start = n from by omega, decode83Go_eq str n 0 start]
  simp

/-- Witness for C4 at the concrete slice `"W7"`. -/
theorem decode83_horner_witness :
    decode83 ['W', '7'] 0 2 =
      ∑ k ∈ Finset.Ico 0 2, charAt ['W', '7'] k * 83 ^ (2 - 1 - k) :=
  decode83_horner ['W', '7'] 0 2 (by decide) (by decide) (by decide)

lemma truncReal_intCast (p : ℤ) : truncReal (p : ℝ) = p := by
  unfold truncReal
  split_ifs <;> simp

lemma jsTrunc_intCast (p : ℤ) : jsTrunc (p : ℝ) = toInt32 p := by
  rw [jsTrunc, truncReal_intCast]

/-- Evaluation of the spec's truncating converter at `-0.001`. -/
lemma spec_trunc_neg001 : spec_linearToSRGB_trunc (-0.001) = -2 := by
  rw [spec_linearToSRGB_trunc, if_neg (by norm_num), truncReal,
    if_pos (by norm_num : (-0.001 : ℝ) * 3294.6 + 1 < 0), Int.ceil_eq_iff]
  constructor <;> norm_num

/-- C6 counterexample: on the negative input `-0.001` the source's `~~`
(here truncation toward zero; the 32-bit wrap is the identity at this
magnitude) disagrees with the spec's `floor`: the code returns `-2` where
the spec's formula gives `-3`. -/
theorem linearTosRGB_floor_cex :
    linearTosRGB (-0.001) = -2 ∧ spec_linearToSRGB (-0.001) = -3 ∧
    linearTosRGB (-0.001) ≠ spec_linearToSRGB (-0.001) := by
  have hc : ¬ ((-0.001 : ℝ) > 0.00001227) := by norm_num
  have h2 : linearTosRGB (-0.001) = -2 := by
    rw [linearTosRGB, if_neg hc]
    show jsTrunc ((-0.001 : ℝ) * d + 1) = -2
    rw [jsTrunc, truncReal, if_pos (by rw [d]; norm_num : (-0.001 : ℝ) * d + 1 < 0), d,
      show ⌈(-0.001 : ℝ) * 3294.6 + 1⌉ = -2 from by
        rw [Int.ceil_eq_iff]; constructor <;> norm_num]
    decide
  have h3 : spec_linearToSRGB (-0.001) = -3 := by
    rw [spec_linearToSRGB, if_neg hc, Int.floor_eq_iff]
    constructor <;> norm_num
  exact ⟨h2, h3, by rw [h2, h3]; decide⟩

/-- C6 amended: `sRGBToLinear` computes exactly the spec's formula, and
`linearTosRGB` computes `ToInt32` (truncation toward zero followed by the
mod-2³² wrap into int32 range) of the spec's inner expression rather than its
floor; whenever the truncated value lies in `[-2³¹, 2³¹)` — in particular for
every in-gamut linear input — this is plain truncation toward zero. -/
theorem converters_match_trunc (v : ℝ) :
    sRGBToLinear v = spec_sRGBToLinear v ∧
    linearTosRGB v = toInt32 (spec_linearToSRGB_trunc v) ∧
    (-(2 ^ 31) ≤ spec_linearToSRGB_trunc v → spec_linearToSRGB_trunc v < 2 ^ 31 →
      linearTosRGB v = spec_linearToSRGB_trunc v) := by
  have h1 : sRGBToLinear v = spec_sRGBToLinear v := by
    simp only [sRGBToLinear, spec_sRGBToLinear, d, e]
  have h2 : linearTosRGB v = toInt32 (spec_linearToSRGB_trunc v) := by
    simp only [linearTosRGB, spec_linearToSRGB_trunc, d, e, jsTrunc, apply_ite truncReal,
      apply_ite toInt32]
  refine ⟨h1, h2, fun hlo hhi => ?_⟩
  rw [h2]
  unfold toInt32
  omega

/-- Witness for C6's amended theorem at the linear value `-0.001`, where the
truncated value `-2` is within int32 range. -/
theorem converters_match_trunc_witness :
    sRGBToLinear (-0.001) = spec_sRGBToLinear (-0.001) ∧
    linearTosRGB (-0.001) = toInt32 (spec_linearToSRGB_trunc (-0.001)) ∧
    linearTosRGB (-0.001) = spec_linearToSRGB_trunc (-0.001) :=
  ⟨(converters_match_trunc (-0.001)).1,
   (converters_match_trunc (-0.001)).2.1,
   (converters_match_trunc (-0.001)).2.2
     (by rw [spec_trunc_neg001]; decide)
     (by rw [spec_trunc_neg001]; decide)⟩

/-- C2 counterexample: for the non-falsy punch `2` the computed scale is
`((q+1)/13446) * 3`, not `((q+1)/13446) * 2`, because the source computes
`punch | 1` (bitwise OR), which sets the lowest bit of an even punch. -/
theorem punch_two_cex :
    maximumValue ['0', '0'] (some 2) ≠
      ((decode83 ['0', '0'] 1 2 : ℝ) + 1) / 13446 * 2 := by
  have h0 : decode83 ['0', '0'] 1 2 = 0 := by decide
  have h1 : punchOr1 (some 2) = 3 := by
    show jsOr1 (jsTrunc 2) = 3
    have ht : jsTrunc (2 : ℝ) = 2 := by
      rw [show (2 : ℝ) = ((2 : ℤ) : ℝ) by norm_num, jsTrunc_intCast]
      decide
    rw [ht]
    decide
  rw [maximumValue, h0, h1]
  norm_num

/-- C2 amended: the scale is `((q+1)/13446) * (punch | 1)` where `|` is
bitwise OR on the 32-bit integer value of `punch`: an absent punch gives
factor 1, an odd integer punch `p` gives `p`, and an even one gives `p + 1`. -/
theorem maximumValue_or1 (hash : List Char) (p : ℤ)
    (hlo : -(2 ^ 31) ≤ p) (hhi : p < 2 ^ 31) :
    maximumValue hash (some (p : ℝ)) =
      ((decode83 hash 1 2 : ℝ) + 1) / 13446 * ((if 2 ∣ p then p + 1 else p : ℤ) : ℝ) ∧
    maximumValue hash none = ((decode83 hash 1 2 : ℝ) + 1) / 13446 := by
  constructor
  · have h1 : punchOr1 (some (p : ℝ)) = if 2 ∣ p then p + 1 else p := by
      show jsOr1 (jsTrunc (p : ℝ)) = _
      rw [jsTrunc_intCast]
      have h32 : toInt32 p = p := by unfold toInt32; omega
      rw [h32, jsOr1]
      split_ifs <;> omega
    rw [maximumValue, h1]
  · have h1 : punchOr1 none = 1 := by
      show jsOr1 0 = 1
      decide
    rw [maximumValue, h1]
    push_cast
    ring

/-- Witness for C2's amended theorem at punch `2` and hash `"00"`. -/
theorem maximumValue_or1_witness :
    maximumValue ['0', '0'] (some ((2 : ℤ) : ℝ)) =
      ((decode83 ['0', '0'] 1 2 : ℝ) + 1) / 13446 *
        (((if 2 ∣ (2 : ℤ) then (2 : ℤ) + 1 else (2 : ℤ)) : ℤ) : ℝ) ∧
    maximumValue ['0', '0'] none = ((decode83 ['0', '0'] 1 2 : ℝ) + 1) / 13446 :=
  maximumValue_or1 ['0', '0'] 2 (by decide) (by decide)

lemma reduceFuel_of_le {x : ℝ} (h : x ≤ Real.pi) : ∀ n, reduceFuel n x = x := by
  intro n
  cases n with
  | zero => rfl
  | succ n => rw [reduceFuel, if_neg (not_lt.2 h)]

lemma reduce_of_le {x : ℝ} (h : x ≤ Real.pi) : reduce x = x :=
  reduceFuel_of_le h _

lemma reduceFuel_add (n m : ℕ) : ∀ x : ℝ, reduceFuel (n + m) x = reduceFuel m (reduceFuel n x) := by
  induction n with
  | zero =>
    intro x
    rw [Nat.zero_add]
    rfl
  | succ n ih =>
    intro x
    have hidx : n + 1 + m = (n + m) + 1 := by omega
    rw [hidx]
    by_cases h : x > Real.pi
    · rw [reduceFuel, if_pos h, ih (x - 2 * Real.pi)]
      have hstep : reduceFuel (n + 1) x = reduceFuel n (x - 2 * Real.pi) := by
        rw [reduceFuel, if_pos h]
      rw [hstep]
    · rw [reduceFuel, if_neg h]
      have hstep : reduceFuel (n + 1) x = x := by rw [reduceFuel, if_neg h]
      rw [hstep, reduceFuel_of_le (le_of_not_lt h) m]

/-- With fuel `n`, the loop lands in `(-π, π]` from any start in
`(-π, π + 2πn]`, having subtracted `2π` some number of times. -/
lemma reduceFuel_spec :
    ∀ (n : ℕ) (x : ℝ), -Real.pi < x → x ≤ Real.pi + 2 * Real.pi * n →
      -Real.pi < reduceFuel n x ∧ reduceFuel n x ≤ Real.pi ∧
        ∃ k : ℕ, reduceFuel n x = x - 2 * Real.pi * k := by
  intro n
  induction n with
  | zero =>
    intro x hlo hhi
    simp only [Nat.cast_zero, mul_zero, add_zero] at hhi
    exact ⟨hlo, hhi, 0, by simp [reduceFuel]⟩
  | succ n ih =>
    intro x hlo hhi
    by_cases h : x > Real.pi
    · rw [reduceFuel, if_pos h]
      have hpi := Real.pi_pos
      have h1 : -Real.pi < x - 2 * Real.pi := by linarith
      have h2 : x - 2 * Real.pi ≤ Real.pi + 2 * Real.pi * n := by
        push_cast at hhi
        linarith
      obtain ⟨ha, hb, k, hk⟩ := ih (x - 2 * Real.pi) h1 h2
      exact ⟨ha, hb, k + 1, by push_cast at hk ⊢; linarith⟩
    · rw [reduceFuel, if_neg h]
      exact ⟨hlo, le_of_not_lt h, 0, by simp⟩

/-- Fuel `fuelFor x` always suffices for the loop to exit. -/
lemma fuelFor_adequate (x : ℝ) : x ≤ Real.pi + 2 * Real.pi * (fuelFor x) := by
  have hpi := Real.pi_pos
  by_cases h : x ≤ Real.pi
  · have hn : (0 : ℝ) ≤ (fuelFor x : ℝ) := Nat.cast_nonneg _
    nlinarith
  · push_neg at h
    have h2pi : (0 : ℝ) < 2 * Real.pi := by linarith
    have hposq : (0 : ℝ) < (x - Real.pi) / (2 * Real.pi) := div_pos (by linarith) h2pi
    have hc0 : 0 ≤ ⌈(x - Real.pi) / (2 * Real.pi)⌉ := by
      have := Int.ceil_pos.mpr hposq
      omega
    have hcast : ((fuelFor x : ℕ) : ℝ) = (⌈(x - Real.pi) / (2 * Real.pi)⌉ : ℝ) := by
      rw [fuelFor]
      exact_mod_cast congrArg (fun z : ℤ => (z : ℝ)) (Int.toNat_of_nonneg hc0)
    rw [hcast]
    have hle : (x - Real.pi) / (2 * Real.pi) ≤ (⌈(x - Real.pi) / (2 * Real.pi)⌉ : ℝ) :=
      Int.le_ceil _
    rw [div_le_iff₀ h2pi] at hle
    linarith

/-- C5 counterexample: at `x = -2π` the shifted argument `-3π/2` is not
brought into `(-π, π]` — the loop only subtracts and never adds `2π`, so it
leaves any argument `≤ π` (hence any argument `≤ -π`) unchanged. -/
theorem fastCos_reduction_cex :
    reduce (-(2 * Real.pi) + Real.pi / 2) = -(2 * Real.pi) + Real.pi / 2 ∧
    ¬ (-Real.pi < reduce (-(2 * Real.pi) + Real.pi / 2)) := by
  have hpi := Real.pi_pos
  have hle : -(2 * Real.pi) + Real.pi / 2 ≤ Real.pi := by linarith
  have h1 := reduce_of_le hle
  refine ⟨h1, ?_⟩
  rw [h1]
  exact not_lt.2 (by linarith)

/-- C5 amended: the reduction normalises the shifted argument into `(-π, π]`
(subtracting a whole number of periods) only when `x > -3π/2`, i.e. when the
shifted argument already exceeds `-π`; it is valid for all non-negative `x`
but not over the full real domain. -/
theorem fastCos_reduction (x : ℝ) (hx : -(3 * Real.pi) / 2 < x) :
    -Real.pi < reduce (x + Real.pi / 2) ∧ reduce (x + Real.pi / 2) ≤ Real.pi ∧
      ∃ n : ℕ, reduce (x + Real.pi / 2) = x + Real.pi / 2 - 2 * Real.pi * n := by
  have hlo : -Real.pi < x + Real.pi / 2 := by linarith
  exact reduceFuel_spec (fuelFor (x + Real.pi / 2)) (x + Real.pi / 2) hlo
    (fuelFor_adequate (x + Real.pi / 2))

/-- Witness for C5's amended theorem at `x = 0`. -/
theorem fastCos_reduction_witness :
    -Real.pi < reduce (0 + Real.pi / 2) ∧ reduce (0 + Real.pi / 2) ≤ Real.pi ∧
      ∃ n : ℕ, reduce (0 + Real.pi / 2) = 0 + Real.pi / 2 - 2 * Real.pi * n :=
  fastCos_reduction 0 (by nlinarith [Real.pi_pos])

/-- C10: the `while (x > PI)` loop of `fastCos` terminates for every real
argument: some finite fuel reaches the exit condition, after which more fuel
changes nothing, so `fastCos` is total. -/
theorem reduce_terminates (x : ℝ) :
    ∃ n : ℕ, reduceFuel n x ≤ Real.pi ∧ ∀ m : ℕ, reduceFuel (n + m) x = reduceFuel n x := by
  by_cases h : x ≤ Real.pi
  · refine ⟨0, h, fun m => ?_⟩
    rw [Nat.zero_add, reduceFuel_of_le h m]
    rfl
  · push_neg at h
    have hpi := Real.pi_pos
    obtain ⟨h1, h2, _⟩ := reduceFuel_spec (fuelFor x) x (by linarith) (fuelFor_adequate x)
    refine ⟨fuelFor x, h2, fun m => ?_⟩
    rw [reduceFuel_add (fuelFor x) m x, reduceFuel_of_le h2 m]

lemma digitChars_length : digitChars.length = 83 := by decide

lemma charAt_bounds {str : List Char} {k : ℕ} (h : charOK str k) :
    0 ≤ charAt str k ∧ charAt str k ≤ 82 := by
  obtain ⟨c, hc, hget⟩ := h
  have hidx : digitChars.indexOf c < 83 := by
    rw [← digitChars_length]
    exact List.indexOf_lt_length.2 hc
  simp only [charAt, hget, indexOfChar, if_pos hc]
  omega

/-- Unfolding of `decode83` over four positions. -/
lemma decode83_four (hash : List Char) :
    decode83 hash 2 6 =
      ((charAt hash 2 * 83 + charAt hash 3) * 83 + charAt hash 4) * 83 + charAt hash 5 := by
  show decode83Go hash 0 2 4 = _
  simp only [decode83Go]
  ring

/-- C7 counterexample: a hash whose average-color field is `"~~~~"` (all
characters valid) decodes to `val = 83⁴ - 1 = 47458320 ≥ 2²⁴`, and the first
component `val >> 16` is `724`, outside `[0, 255]` — the source never masks
the top component. -/
theorem averageColor_range_cex :
    (∀ k, k < 6 → 2 ≤ k → charOK ['0', '0', '~', '~', '~', '~'] k) ∧
    (getBlurHashAverageColor ['0', '0', '~', '~', '~', '~']).1 = 724 ∧
    ¬ (getBlurHashAverageColor ['0', '0', '~', '~', '~', '~']).1 ≤ 255 := by
  refine ⟨by decide, by decide, by decide⟩

/-- C7 amended: with all four average-color characters in the alphabet, the
two low components are always in `[0, 255]`, and all three components are the
24-bit big-endian split (hence all in `[0, 255]`) provided the decoded value
is below `2²⁴`. -/
theorem averageColor_split (hash : List Char)
    (hOK : ∀ k, k < 6 → 2 ≤ k → charOK hash k)
    (hlt : decode83 hash 2 6 < 2 ^ 24) :
    getBlurHashAverageColor hash =
      (decode83 hash 2 6 / 65536, decode83 hash 2 6 / 256 % 256, decode83 hash 2 6 % 256) ∧
    0 ≤ decode83 hash 2 6 / 65536 ∧ decode83 hash 2 6 / 65536 ≤ 255 ∧
    0 ≤ decode83 hash 2 6 / 256 % 256 ∧ decode83 hash 2 6 / 256 % 256 ≤ 255 ∧
    0 ≤ decode83 hash 2 6 % 256 ∧ decode83 hash 2 6 % 256 ≤ 255 := by
  have hb2 := charAt_bounds (hOK 2 (by omega) (by omega))
  have hb3 := charAt_bounds (hOK 3 (by omega) (by omega))
  have hb4 := charAt_bounds (hOK 4 (by omega) (by omega))
  have hb5 := charAt_bounds (hOK 5 (by omega) (by omega))
  have h4 := decode83_four hash
  have hv0 : 0 ≤ decode83 hash 2 6 := by rw [h4]; omega
  have hv32 : toInt32 (decode83 hash 2 6) = decode83 hash 2 6 := by
    unfold toInt32
    omega
  have hrepr : getBlurHashAverageColor hash =
      (decode83 hash 2 6 / 65536, decode83 hash 2 6 / 256 % 256, decode83 hash 2 6 % 256) := by
    show ((toInt32 (decode83 hash 2 6)).fdiv 65536,
      ((toInt32 (decode83 hash 2 6)).fdiv 256) % 256, (toInt32 (decode83 hash 2 6)) % 256) = _
    rw [hv32, Int.fdiv_eq_ediv _ (by norm_num), Int.fdiv_eq_ediv _ (by norm_num)]
  refine ⟨hrepr, ?_, ?_, ?_, ?_, ?_, ?_⟩ <;> omega

/-- Witness for C7's amended theorem at the all-zero hash. -/
theorem averageColor_split_witness :
    getBlurHashAverageColor ['0', '0', '0', '0', '0', '0'] =
      (decode83 ['0', '0', '0', '0', '0', '0'] 2 6 / 65536,
       decode83 ['0', '0', '0', '0', '0', '0'] 2 6 / 256 % 256,
       decode83 ['0', '0', '0', '0', '0', '0'] 2 6 % 256) ∧
    0 ≤ decode83 ['0', '0', '0', '0', '0', '0'] 2 6 / 65536 ∧
    decode83 ['0', '0', '0', '0', '0', '0'] 2 6 / 65536 ≤ 255 ∧
    0 ≤ decode83 ['0', '0', '0', '0', '0', '0'] 2 6 / 256 % 256 ∧
    decode83 ['0', '0', '0', '0', '0', '0'] 2 6 / 256 % 256 ≤ 255 ∧
    0 ≤ decode83 ['0', '0', '0', '0', '0', '0'] 2 6 % 256 ∧
    decode83 ['0', '0', '0', '0', '0', '0'] 2 6 % 256 ≤ 255 :=
  averageColor_split ['0', '0', '0', '0', '0', '0'] (by decide) (by decide)

/-- C8 counterexample: for `width = -1`, `height = 1` the allocation size
`(-1*4)*1` is negative, and `new Uint8ClampedArray` throws a `RangeError`
(modelled by `none`) instead of returning an empty buffer. -/
theorem decode_negative_width_cex :
    decodeBlurHash [] (-1) 1 none = none := by
  rw [decodeBlurHash]
  norm_num

/-- C8 amended: for `width ≤ 0` or `height ≤ 0` the decoder returns the
untouched zero-filled buffer of length `(width*4)*height` when that length is
non-negative (so an empty buffer exactly when it is zero, e.g. whenever one
dimension is zero, or a zero-filled non-empty buffer when both are negative),
and faults with a `RangeError` when the length is negative (exactly one
negative dimension). -/
theorem decode_nonpositive_dims (hash : List Char) (punch : Option ℝ) (w h : ℤ)
    (hwh : w ≤ 0 ∨ h ≤ 0) :
    decodeBlurHash hash w h punch =
      if w * 4 * h < 0 then none else some (List.replicate (w * 4 * h).toNat 0) := by
  have hc2 : ¬ (0 < w ∧ 0 < h) := by omega
  by_cases hneg : w * 4 * h < 0
  · rw [decodeBlurHash]
    simp [hneg]
  · rw [decodeBlurHash]
    simp [hneg, hc2]

/-- Witness for C8's amended theorem at `width = 0`, `height = 5`. -/
theorem decode_nonpositive_dims_witness :
    decodeBlurHash [] 0 5 none =
      if (0 : ℤ) * 4 * 5 < 0 then none else some (List.replicate ((0 : ℤ) * 4 * 5).toNat 0) :=
  decode_nonpositive_dims [] none 0 5 (Or.inl le_rfl)

lemma signSqr_intCast (z : ℤ) : signSqr (z : ℝ) = (signSqrZ z : ℝ) := by
  simp only [signSqr, signSqrZ]
  by_cases hz : z < 0
  · rw [if_pos hz, if_pos (by exact_mod_cast hz : (z : ℝ) < 0)]
    push_cast
    ring
  · rw [if_neg hz, if_neg (by exact_mod_cast hz : ¬ (z : ℝ) < 0)]
    push_cast
    ring

/-- Unfolding of `decode83` over two positions. -/
lemma decode83_two (hash : List Char) (s : ℕ) :
    decode83 hash s (s + 2) = charAt hash s * 83 + charAt hash (s + 1) := by
  rw [decode83, Nat.add_sub_cancel_left]
  simp only [decode83Go]
  ring

/-- C3: each AC coefficient triple is
`(sign_sqr(v div 361 - 9), sign_sqr((v div 19) mod 19 - 9), sign_sqr(v mod 19 - 9))`
scaled by `maximumValue`, where `v` is the 2-character base-83 value at offset
`4+2k .. 6+2k` and `sign_sqr(x) = sign(x)·x²` with `sign(0) = +1`. -/
theorem ac_coefficients (hash : List Char) (punch : Option ℝ) (k : ℕ)
    (hk : 1 ≤ k)
    (h1 : charOK hash (4 + k * 2))
    (h2 : charOK hash (5 + k * 2))
    (_hsize : (k : ℤ) < numX hash * numY hash) :
    colorsAt hash (maximumValue hash punch) k =
      ((signSqrZ (decode83 hash (4 + k * 2) (6 + k * 2) / 361 - 9) : ℝ) * maximumValue hash punch,
       (signSqrZ (decode83 hash (4 + k * 2) (6 + k * 2) / 19 % 19 - 9) : ℝ) * maximumValue hash punch,
       (signSqrZ (decode83 hash (4 + k * 2) (6 + k * 2) % 19 - 9) : ℝ) * maximumValue hash punch) := by
  have hk0 : ¬ k = 0 := by omega
  have hb1 := charAt_bounds h1
  have hb2 := charAt_bounds h2
  have hv : decode83 hash (4 + k * 2) (6 + k * 2) =
      charAt hash (4 + k * 2) * 83 + charAt hash (5 + k * 2) := by
    rw [show 6 + k * 2 = (4 + k * 2) + 2 from by omega, decode83_two,
      show 4 + k * 2 + 1 = 5 + k * 2 from by omega]
  have hv0 : 0 ≤ decode83 hash (4 + k * 2) (6 + k * 2) := by
    rw [hv]
    omega
  have ht1 : (decode83 hash (4 + k * 2) (6 + k * 2)).tdiv (19 * 19) =
      decode83 hash (4 + k * 2) (6 + k * 2) / 361 := by
    rw [show ((19 : ℤ) * 19) = 361 from by norm_num]
    exact Int.tdiv_eq_ediv hv0 (by norm_num)
  have ht2 : ((decode83 hash (4 + k * 2) (6 + k * 2)).tdiv 19).tmod 19 =
      decode83 hash (4 + k * 2) (6 + k * 2) / 19 % 19 := by
    rw [Int.tdiv_eq_ediv hv0 (by norm_num)]
    exact Int.tmod_eq_emod (Int.ediv_nonneg hv0 (by norm_num)) (by norm_num)
  have ht3 : (decode83 hash (4 + k * 2) (6 + k * 2)).tmod 19 =
      decode83 hash (4 + k * 2) (6 + k * 2) % 19 :=
    Int.tmod_eq_emod hv0 (by norm_num)
  simp only [colorsAt, if_neg hk0]
  rw [ht1, ht2, ht3, signSqr_intCast, signSqr_intCast, signSqr_intCast]

/-- Witness for C3 at a 2×1 grid hash with first AC field `"00"`. -/
theorem ac_coefficients_witness :
    colorsAt ['1', '0', '0', '0', '0', '0', '0', '0']
        (maximumValue ['1', '0', '0', '0', '0', '0', '0', '0'] none) 1 =
      ((signSqrZ (decode83 ['1', '0', '0', '0', '0', '0', '0', '0'] (4 + 1 * 2) (6 + 1 * 2) / 361 - 9) : ℝ) *
         maximumValue ['1', '0', '0', '0', '0', '0', '0', '0'] none,
       (signSqrZ (decode83 ['1', '0', '0', '0', '0', '0', '0', '0'] (4 + 1 * 2) (6 + 1 * 2) / 19 % 19 - 9) : ℝ) *
         maximumValue ['1', '0', '0', '0', '0', '0', '0', '0'] none,
       (signSqrZ (decode83 ['1', '0', '0', '0', '0', '0', '0', '0'] (4 + 1 * 2) (6 + 1 * 2) % 19 - 9) : ℝ) *
         maximumValue ['1', '0', '0', '0', '0', '0', '0', '0'] none) :=
  ac_coefficients ['1', '0', '0', '0', '0', '0', '0', '0'] none 1
    (by decide) (by decide) (by decide) (by decide)

lemma rgbaChunks_length (l : List (ℕ × ℕ × ℕ)) : (rgbaChunks l).length = 4 * l.length := by
  induction l with
  | nil => rfl
  | cons a t ih =>
    simp only [rgbaChunks, List.flatMap_cons, List.length_append, List.length_cons,
      List.length_nil] at ih ⊢
    omega

lemma rgbaChunks_alpha (l : List (ℕ × ℕ × ℕ)) :
    ∀ idx, idx % 4 = 3 → idx < 4 * l.length → (rgbaChunks l).get? idx = some 255 := by
  induction l with
  | nil =>
    intro idx _ hlt
    simp at hlt
  | cons a t ih =>
    intro idx h3 hlt
    simp only [rgbaChunks, List.flatMap_cons] at ih ⊢
    by_cases hc : idx < 4
    · have h3' : idx = 3 := by omega
      subst h3'
      rfl
    · push_neg at hc
      rw [List.get?_append_right (by simpa using hc)]
      simp only [List.length_cons, List.length_nil]
      exact ih (idx - 4) (by omega) (by simp at hlt; omega)

lemma length_flatMap_const {α : Type} (g : ℕ → List α) (h c : ℕ)
    (hg : ∀ y, (g y).length = c) :
    ((List.range h).flatMap g).length = h * c := by
  induction h with
  | zero => simp
  | succ n ih =>
    rw [List.range_succ, List.flatMap_append, List.length_append, ih]
    simp [hg]
    ring

lemma renderPixels_length (colors : ℕ → ℝ × ℝ × ℝ) (nx ny w h : ℕ) :
    (renderPixels colors nx ny w h).length = 4 * (h * w) := by
  rw [renderPixels, rgbaChunks_length,
    length_flatMap_const _ h w (fun y => by simp)]

lemma renderPixels_alpha (colors : ℕ → ℝ × ℝ × ℝ) (nx ny w h : ℕ) :
    ∀ idx, idx % 4 = 3 → idx < (renderPixels colors nx ny w h).length →
      (renderPixels colors nx ny w h).get? idx = some 255 := by
  intro idx h3 hlt
  rw [renderPixels] at hlt ⊢
  rw [rgbaChunks_length] at hlt
  exact rgbaChunks_alpha _ idx h3 hlt

/-- C1: for a valid hash and positive dimensions, the decoder returns a
buffer of exactly `width*height*4` bytes whose every 4th byte (the alpha
channel) is `255`. -/
theorem decode_length_alpha (hash : List Char) (w h : ℤ) (punch : Option ℝ)
    (_hvalid : validHash hash) (hw : 0 < w) (hh : 0 < h) :
    ∃ buf, decodeBlurHash hash w h punch = some buf ∧
      (buf.length : ℤ) = w * h * 4 ∧
      ∀ idx : ℕ, idx % 4 = 3 → idx < buf.length → buf.get? idx = some 255 := by
  have hpos : 0 ≤ w * 4 * h := by nlinarith
  refine ⟨renderPixels (colorsAt hash (maximumValue hash punch))
      (numX hash).toNat (numY hash).toNat w.toNat h.toNat, ?_, ?_, ?_⟩
  · simp only [decodeBlurHash]
    rw [if_neg (not_lt.2 hpos), if_pos ⟨hw, hh⟩]
  · rw [renderPixels_length]
    have hwt : (w.toNat : ℤ) = w := Int.toNat_of_nonneg hw.le
    have hht : (h.toNat : ℤ) = h := Int.toNat_of_nonneg hh.le
    push_cast
    rw [hwt, hht]
    ring
  · exact renderPixels_alpha _ _ _ _ _

/-- Witness for C1 at the 1×1 hash `"000000"` with a 2×2 output. -/
theorem decode_length_alpha_witness :
    ∃ buf, decodeBlurHash ['0', '0', '0', '0', '0', '0'] 2 2 none = some buf ∧
      (buf.length : ℤ) = 2 * 2 * 4 ∧
      ∀ idx : ℕ, idx % 4 = 3 → idx < buf.length → buf.get? idx = some 255 :=
  decode_length_alpha ['0', '0', '0', '0', '0', '0'] 2 2 none
    (by decide) (by decide) (by decide)

/-- Bound a rational-exponent rpow from above by comparing natural powers. -/
lemma rpow_div_le {x c : ℝ} (p q : ℕ) (hx : 0 ≤ x) (hc : 0 ≤ c) (hq : q ≠ 0)
    (h : x ^ p ≤ c ^ q) : x ^ ((p : ℝ) / (q : ℝ)) ≤ c := by
  apply le_of_pow_le_pow_left₀ hq hc
  have hstep : (x ^ ((p : ℝ) / (q : ℝ))) ^ q = x ^ p := by
    rw [← Real.rpow_natCast (x ^ ((p : ℝ) / (q : ℝ))) q, ← Real.rpow_mul hx,
      div_mul_cancel₀ _ (by exact_mod_cast hq : ((q : ℕ) : ℝ) ≠ 0), Real.rpow_natCast]
  rw [hstep]
  exact h

/-- Bound a rational-exponent rpow from below by comparing natural powers. -/
lemma le_rpow_div {x c : ℝ} (p q : ℕ) (hx : 0 ≤ x) (hq : q ≠ 0)
    (h : c ^ q ≤ x ^ p) : c ≤ x ^ ((p : ℝ) / (q : ℝ)) := by
  apply le_of_pow_le_pow_left₀ hq (Real.rpow_nonneg hx _)
  have hstep : (x ^ ((p : ℝ) / (q : ℝ))) ^ q = x ^ p := by
    rw [← Real.rpow_natCast (x ^ ((p : ℝ) / (q : ℝ))) q, ← Real.rpow_mul hx,
      div_mul_cancel₀ _ (by exact_mod_cast hq : ((q : ℕ) : ℝ) ≠ 0), Real.rpow_natCast]
  rw [hstep]
  exact h

/-- The round trip at byte value 0 evaluates to 1. -/
lemma roundtrip_zero_eval : linearTosRGB (sRGBToLinear 0) = 1 := by
  have h0 : sRGBToLinear 0 = 0 := by
    rw [sRGBToLinear, if_neg (by norm_num), d]
    norm_num
  rw [h0, linearTosRGB, if_neg (by norm_num), d, jsTrunc, truncReal,
    if_neg (by norm_num : ¬ ((0 : ℝ) * 3294.6 + 1 < 0)),
    show (0 : ℝ) * 3294.6 + 1 = 1 by norm_num, Int.floor_one]
  decide

/-- The round trip at byte value 1 evaluates to -3: the linear value
`1/3294.6 ≈ 3.035e-4` exceeds the power-branch threshold `1.227e-5`, and
`269.025 · (1/3294.6)^0.416666 - 13.025 ≈ -3.82` truncates to `-3`. -/
lemma roundtrip_one_eval : linearTosRGB (sRGBToLinear 1) = -3 := by
  have hL : sRGBToLinear 1 = 1 / 3294.6 := by
    rw [sRGBToLinear, if_neg (by norm_num), d]
  have hL0 : (0 : ℝ) < 1 / 3294.6 := by norm_num
  have hL1 : (1 / 3294.6 : ℝ) ≤ 1 := by norm_num
  have hub : (1 / 3294.6 : ℝ) ^ (0.416666 : ℝ) ≤ 37 / 1000 := by
    have h1 : (1 / 3294.6 : ℝ) ^ (0.416666 : ℝ) ≤ (1 / 3294.6 : ℝ) ^ ((11 : ℝ) / 27) :=
      Real.rpow_le_rpow_of_exponent_ge hL0 hL1 (by norm_num)
    have h2 := rpow_div_le (x := (1 / 3294.6 : ℝ)) (c := (37 / 1000 : ℝ)) 11 27
      hL0.le (by norm_num) (by norm_num) (by norm_num)
    push_cast at h2
    linarith
  have hlb : (336 / 10000 : ℝ) ≤ (1 / 3294.6 : ℝ) ^ (0.416666 : ℝ) := by
    have h1 : (1 / 3294.6 : ℝ) ^ ((5 : ℝ) / 12) ≤ (1 / 3294.6 : ℝ) ^ (0.416666 : ℝ) :=
      Real.rpow_le_rpow_of_exponent_ge hL0 hL1 (by norm_num)
    have h2 := le_rpow_div (x := (1 / 3294.6 : ℝ)) (c := (336 / 10000 : ℝ)) 5 12
      hL0.le (by norm_num) (by norm_num)
    push_cast at h2
    linarith
  have hy1 : 269.025 * ((1 / 3294.6 : ℝ) ^ (0.416666 : ℝ)) - 13.025 ≤ -3 := by nlinarith
  have hy2 : (-4 : ℝ) < 269.025 * ((1 / 3294.6 : ℝ) ^ (0.416666 : ℝ)) - 13.025 := by nlinarith
  have hceil : ⌈269.025 * ((1 / 3294.6 : ℝ) ^ (0.416666 : ℝ)) - 13.025⌉ = -3 := by
    rw [Int.ceil_eq_iff]
    constructor
    · push_cast
      linarith
    · push_cast
      linarith
  rw [hL, linearTosRGB, if_pos (by norm_num), e, jsTrunc, truncReal, if_pos (by linarith),
    hceil]
  decide

/-- The round trip at byte value 128 lands in `[127, 129]`. -/
lemma roundtrip_128_bounds :
    127 ≤ linearTosRGB (sRGBToLinear 128) ∧ linearTosRGB (sRGBToLinear 128) ≤ 129 := by
  have hx_eq : sRGBToLinear 128 = (128 / 269.025 + 0.052132 : ℝ) ^ (2.4 : ℝ) := by
    rw [sRGBToLinear, if_pos (by norm_num), e]
  have hx0 : (0 : ℝ) < 128 / 269.025 + 0.052132 := by norm_num
  have hx1 : (128 / 269.025 + 0.052132 : ℝ) ≤ 1 := by norm_num
  have hLlb : (21 / 100 : ℝ) ≤ (128 / 269.025 + 0.052132 : ℝ) ^ ((12 : ℝ) / 5) := by
    have h2 := le_rpow_div (x := (128 / 269.025 + 0.052132 : ℝ)) (c := (21 / 100 : ℝ)) 12 5
      hx0.le (by norm_num) (by norm_num)
    push_cast at h2
    linarith
  have h24 : (2.4 : ℝ) = (12 : ℝ) / 5 := by norm_num
  have hcond : (128 / 269.025 + 0.052132 : ℝ) ^ (2.4 : ℝ) > 0.00001227 := by
    rw [h24]
    linarith
  have hP : ((128 / 269.025 + 0.052132 : ℝ) ^ (2.4 : ℝ)) ^ (0.416666 : ℝ) =
      (128 / 269.025 + 0.052132 : ℝ) ^ ((624999 : ℝ) / 625000) := by
    rw [← Real.rpow_mul hx0.le]
    norm_num
  have hPub : (128 / 269.025 + 0.052132 : ℝ) ^ ((624999 : ℝ) / 625000) ≤ 5305 / 10000 := by
    have h1 : (128 / 269.025 + 0.052132 : ℝ) ^ ((624999 : ℝ) / 625000) ≤
        (128 / 269.025 + 0.052132 : ℝ) ^ ((199 : ℝ) / 200) :=
      Real.rpow_le_rpow_of_exponent_ge hx0 hx1 (by norm_num)
    have h2 := rpow_div_le (x := (128 / 269.025 + 0.052132 : ℝ)) (c := (5305 / 10000 : ℝ))
      199 200 hx0.le (by norm_num) (by norm_num) (by norm_num)
    push_cast at h2
    linarith
  have hPlb : (128 / 269.025 + 0.052132 : ℝ) ≤
      (128 / 269.025 + 0.052132 : ℝ) ^ ((624999 : ℝ) / 625000) := by
    have h1 := Real.rpow_le_rpow_of_exponent_ge hx0 hx1
      (by norm_num : (624999 : ℝ) / 625000 ≤ 1)
    rwa [Real.rpow_one] at h1
  have hxlb : (5205 / 10000 : ℝ) ≤ 128 / 269.025 + 0.052132 := by norm_num
  have hy1 : (127 : ℝ) ≤
      269.025 * (((128 / 269.025 + 0.052132 : ℝ) ^ (2.4 : ℝ)) ^ (0.416666 : ℝ)) - 13.025 := by
    rw [hP]
    linarith
  have hy2 : 269.025 * (((128 / 269.025 + 0.052132 : ℝ) ^ (2.4 : ℝ)) ^ (0.416666 : ℝ)) -
      13.025 < 130 := by
    rw [hP]
    linarith
  have hfl1 : 127 ≤
      ⌊269.025 * (((128 / 269.025 + 0.052132 : ℝ) ^ (2.4 : ℝ)) ^ (0.416666 : ℝ)) - 13.025⌋ :=
    Int.le_floor.2 (by push_cast; linarith)
  have hfl2 :
      ⌊269.025 * (((128 / 269.025 + 0.052132 : ℝ) ^ (2.4 : ℝ)) ^ (0.416666 : ℝ)) - 13.025⌋ <
        130 :=
    Int.floor_lt.2 (by push_cast; linarith)
  rw [hx_eq, linearTosRGB, if_pos hcond, e, jsTrunc, truncReal, if_neg (by linarith)]
  unfold toInt32
  omega

/-- The round trip at byte value 255 lands in `[254, 256]`. -/
lemma roundtrip_255_bounds :
    254 ≤ linearTosRGB (sRGBToLinear 255) ∧ linearTosRGB (sRGBToLinear 255) ≤ 256 := by
  have hx_eq : sRGBToLinear 255 = (255 / 269.025 + 0.052132 : ℝ) ^ (2.4 : ℝ) := by
    rw [sRGBToLinear, if_pos (by norm_num), e]
  have hx0 : (0 : ℝ) < 255 / 269.025 + 0.052132 := by norm_num
  have hx1 : (255 / 269.025 + 0.052132 : ℝ) ≤ 1 := by norm_num
  have hLlb : (9 / 10 : ℝ) ≤ (255 / 269.025 + 0.052132 : ℝ) ^ ((12 : ℝ) / 5) := by
    have h2 := le_rpow_div (x := (255 / 269.025 + 0.052132 : ℝ)) (c := (9 / 10 : ℝ)) 12 5
      hx0.le (by norm_num) (by norm_num)
    push_cast at h2
    linarith
  have h24 : (2.4 : ℝ) = (12 : ℝ) / 5 := by norm_num
  have hcond : (255 / 269.025 + 0.052132 : ℝ) ^ (2.4 : ℝ) > 0.00001227 := by
    rw [h24]
    linarith
  have hP : ((255 / 269.025 + 0.052132 : ℝ) ^ (2.4 : ℝ)) ^ (0.416666 : ℝ) =
      (255 / 269.025 + 0.052132 : ℝ) ^ ((624999 : ℝ) / 625000) := by
    rw [← Real.rpow_mul hx0.le]
    norm_num
  have hPub : (255 / 269.025 + 0.052132 : ℝ) ^ ((624999 : ℝ) / 625000) ≤ 1 :=
    Real.rpow_le_one hx0.le hx1 (by norm_num)
  have hPlb : (255 / 269.025 + 0.052132 : ℝ) ≤
      (255 / 269.025 + 0.052132 : ℝ) ^ ((624999 : ℝ) / 625000) := by
    have h1 := Real.rpow_le_rpow_of_exponent_ge hx0 hx1
      (by norm_num : (624999 : ℝ) / 625000 ≤ 1)
    rwa [Real.rpow_one] at h1
  have hxlb : (9926 / 10000 : ℝ) ≤ 255 / 269.025 + 0.052132 := by norm_num
  have hy1 : (254 : ℝ) ≤
      269.025 * (((255 / 269.025 + 0.052132 : ℝ) ^ (2.4 : ℝ)) ^ (0.416666 : ℝ)) - 13.025 := by
    rw [hP]
    linarith
  have hy2 : 269.025 * (((255 / 269.025 + 0.052132 : ℝ) ^ (2.4 : ℝ)) ^ (0.416666 : ℝ)) -
      13.025 ≤ 256 := by
    rw [hP]
    linarith
  have hfl1 : 254 ≤
      ⌊269.025 * (((255 / 269.025 + 0.052132 : ℝ) ^ (2.4 : ℝ)) ^ (0.416666 : ℝ)) - 13.025⌋ :=
    Int.le_floor.2 (by push_cast; linarith)
  have hfl2 :
      ⌊269.025 * (((255 / 269.025 + 0.052132 : ℝ) ^ (2.4 : ℝ)) ^ (0.416666 : ℝ)) - 13.025⌋ ≤
        256 := by
    have h256 := Int.floor_le
      (269.025 * (((255 / 269.025 + 0.052132 : ℝ) ^ (2.4 : ℝ)) ^ (0.416666 : ℝ)) - 13.025)
    have hcast : ((⌊269.025 * (((255 / 269.025 + 0.052132 : ℝ) ^ (2.4 : ℝ)) ^ (0.416666 : ℝ)) -
        13.025⌋ : ℤ) : ℝ) ≤ 256 := by linarith
    exact_mod_cast hcast
  rw [hx_eq, linearTosRGB, if_pos hcond, e, jsTrunc, truncReal, if_neg (by linarith)]
  unfold toInt32
  omega

/-- C9 counterexample: the raw (unclamped) round trip at byte value 1 gives
`-3`, which is 4 away from 1, not within 1. -/
theorem roundtrip_one_cex :
    linearTosRGB (sRGBToLinear 1) = -3 ∧ 1 < |(-3 : ℤ) - 1| :=
  ⟨roundtrip_one_eval, by decide⟩

/-- C9 amended: with the caller-side clamp to `[0, 255]` (which the pixel
buffer type applies), the round trip reproduces each of `{0, 1, 128, 255}`
within ±1; without the clamp it fails at byte value 1. -/
theorem roundtrip_clamped :
    |(clampByte (linearTosRGB (sRGBToLinear 0)) : ℤ) - 0| ≤ 1 ∧
    |(clampByte (linearTosRGB (sRGBToLinear 1)) : ℤ) - 1| ≤ 1 ∧
    |(clampByte (linearTosRGB (sRGBToLinear 128)) : ℤ) - 128| ≤ 1 ∧
    |(clampByte (linearTosRGB (sRGBToLinear 255)) : ℤ) - 255| ≤ 1 := by
  refine ⟨?_, ?_, ?_, ?_⟩
  · rw [roundtrip_zero_eval]
    decide
  · rw [roundtrip_one_eval]
    decide
  · obtain ⟨ha, hb⟩ := roundtrip_128_bounds
    rw [clampByte, if_neg (by omega), if_neg (by omega), Int.toNat_of_nonneg (by omega),
      abs_le]
    omega
  · obtain ⟨ha, hb⟩ := roundtrip_255_bounds
    by_cases hz : 255 < linearTosRGB (sRGBToLinear 255)
    · rw [clampByte, if_neg (by omega), if_pos hz]
      decide
    · rw [clampByte, if_neg (by omega), if_neg hz, Int.toNat_of_nonneg (by omega), abs_le]
      omega

end SmearHash
